import Mathlib

/-!
Verification of the structural correlation and offset-locator engine of
bingrep (src/main.rs), shallowly embedded in Lean.

Modelling conventions:
* File bytes are `List Nat` (each element is one byte of the `Vec<u8>`
  buffer; values are whatever `u8` held, we never need the `< 256` bound).
* Rust `u64` arithmetic is `Nat` with explicit wrap-around modulo `2 ^ 64`
  (`wrap_add`, `wrap_sub` below mirror release-mode wrapping semantics).
* Rust `isize` (the relocation addend) is `Int`; the 64-bit two-complement
  bit pattern used by the hex formatter is taken with `% 2 ^ 64` on `Int`.
* A Rust panic (`unwrap`, out-of-bounds slice/index) is `Option.none`; a
  total rendering path is `Option.some` of the produced text.
* Terminal colour codes and column padding are presentation only (spec
  paragraph 1 places them out of scope) and are omitted from the rendered
  strings; the textual content and its order are kept.
* String tables (goblin Strtab, an external collaborator per the spec) are
  abstracted as lookup functions `Nat → String`.
-/

namespace Bingrep

/-- Size of the `u64` value space, used for wrap-around arithmetic. -/
def u64_size : Nat := 2 ^ 64

/-- Wrapping `u64` addition, as performed by `p_offset + p_filesz` and the
closing `+ base` of the `normalize` closure in `src/main.rs`. -/
def wrap_add (a b : Nat) : Nat := (a + b) % u64_size

/-- Wrapping `u64` subtraction (`offset as u64 - base_offset` in the
`normalize` closure); callers of the Rust code only reach it with
`b ≤ a < 2 ^ 64`, where it agrees with truncated subtraction. -/
def wrap_sub (a b : Nat) : Nat := (u64_size + a - b) % u64_size

/-! ## Pattern search engine

`Elf::fmt`, search loop (src/main.rs lines 686-697):
the loop runs `i` over `0..bytes.len()` and calls
`bytes.pread_slice::<str>(i, search.len())`; an `Ok` result is compared
with the needle and `i` is pushed on equality, an `Err` is discarded.

`pread_slice` is scroll reading `count` bytes at `offset`; it fails when
the requested window leaves the buffer. The `str` decoding step of scroll
can also fail on invalid UTF-8, but such a window never equals the needle
(the needle is the byte encoding of a valid Rust `String`, and equal byte
windows have equal validity), so the decoding failure is absorbed into the
inequality and the model compares raw byte windows. -/

/-- Bounded read of `count` bytes at `offset`: `none` models the scroll
bounds error that the search loop silently discards. -/
def pread_slice (bytes : List Nat) (offset count : Nat) : Option (List Nat) :=
  if offset + count ≤ bytes.length then some ((bytes.drop offset).take count) else none

/-- The search loop of `Elf::fmt`: every position of the byte buffer is
tried in ascending order and kept when the bounded read succeeds and the
window equals the needle. (`find_all` is the name the spec gives to this
inline loop.) -/
def find_all (bytes : List Nat) (search : List Nat) : List Nat :=
  (List.range bytes.length).filter (fun i =>
    match pread_slice bytes i search.length with
    | some res => decide (res = search)
    | none => false)

lemma mem_find_all_iff (h n : List Nat) (hn : n ≠ []) (o : Nat) :
    o ∈ find_all h n ↔ (h.drop o).take n.length = n := by
  constructor
  · intro ho
    rw [find_all, List.mem_filter] at ho
    obtain ⟨-, hp⟩ := ho
    unfold pread_slice at hp
    by_cases hb : o + n.length ≤ h.length
    · simp only [hb, if_pos] at hp
      exact of_decide_eq_true hp
    · simp [hb] at hp
  · intro heq
    have hlen := congrArg List.length heq
    rw [List.length_take, List.length_drop] at hlen
    have hpos : 0 < n.length := List.length_pos.mpr hn
    have hmin : min n.length (h.length - o) ≤ h.length - o := Nat.min_le_right _ _
    rw [hlen] at hmin
    have hb : o + n.length ≤ h.length := by omega
    rw [find_all, List.mem_filter, List.mem_range]
    refine ⟨by omega, ?_⟩
    unfold pread_slice
    simp [hb, heq]

/-- C1: for every haystack and non-empty needle, `find_all` returns exactly
the offsets whose byte window equals the needle (membership is equivalent
to the window equality, which also fails for windows truncated by the end
of the buffer), and the returned offsets are strictly ascending, hence
duplicate-free; overlapping occurrences all satisfy the equivalence and
are therefore all reported. -/
theorem claim_C1 (h n : List Nat) (hn : n ≠ []) :
    List.Pairwise (· < ·) (find_all h n) ∧
    ∀ o, o ∈ find_all h n ↔ (h.drop o).take n.length = n := by
  constructor
  · rw [find_all]
    exact List.Pairwise.sublist (List.filter_sublist _) (List.pairwise_lt_range _)
  · intro o
    exact mem_find_all_iff h n hn o

/-- Witness for C1: the overlapping-match example, searching the bytes of
"aaa" for "aa" yields offsets 0 and 1, and that output is strictly
ascending by C1 itself. -/
theorem claim_C1_witness :
    find_all [97, 97, 97] [97, 97] = [0, 1] ∧
    List.Pairwise (· < ·) (find_all [97, 97, 97] [97, 97]) :=
  ⟨by decide, (claim_C1 [97, 97, 97] [97, 97] (by decide)).1⟩

/-- C7 counterexample: the search loop has no error path at all; on the
two-byte haystack [10, 20] the empty needle is not rejected, the loop
reports a match at every offset. -/
theorem claim_C7_cex : find_all [10, 20] [] = [0, 1] := by decide

/-- C7 amended: an empty needle is not rejected as an input error; the
bounded zero-length read succeeds at every position, the empty window
equals the empty needle, and the search reports every offset of the
haystack. -/
theorem claim_C7 (h : List Nat) : find_all h [] = List.range h.length := by
  rw [find_all]
  apply List.filter_eq_self.mpr
  intro a ha
  rw [List.mem_range] at ha
  unfold pread_slice
  simp [Nat.le_of_lt ha]

/-- C9: every offset reported by the search satisfies
`o + needle length ≤ haystack length`; positions closer to the end of the
buffer make the bounded read fail and are silently discarded, so no
truncated partial match at the buffer tail is reported. -/
theorem claim_C9 (h n : List Nat) (o : Nat) (ho : o ∈ find_all h n) :
    o + n.length ≤ h.length := by
  rw [find_all, List.mem_filter] at ho
  obtain ⟨-, hp⟩ := ho
  unfold pread_slice at hp
  by_cases hb : o + n.length ≤ h.length
  · exact hb
  · simp [hb] at hp

/-- Witness for C9: the match of needle [2] at offset 1 of [1, 2, 3]
respects the bound. -/
theorem claim_C9_witness : 1 + ([2] : List Nat).length ≤ ([1, 2, 3] : List Nat).length :=
  claim_C9 [1, 2, 3] [2] 1 (by decide)

/-! ## Structural model and offset locator

ELF program headers and section headers as goblin exposes them to
`Elf::fmt`; only the numeric fields (all `u64`/`u32` in the source,
modelled as `Nat`) are needed. -/

structure ProgramHeader where
  p_type : Nat
  p_flags : Nat
  p_offset : Nat
  p_vaddr : Nat
  p_paddr : Nat
  p_filesz : Nat
  p_memsz : Nat
  p_align : Nat
deriving DecidableEq, Inhabited

structure SectionHeader where
  sh_name : Nat
  sh_type : Nat
  sh_flags : Nat
  sh_addr : Nat
  sh_offset : Nat
  sh_size : Nat
  sh_link : Nat
  sh_info : Nat
  sh_addralign : Nat
  sh_entsize : Nat
deriving DecidableEq, Inhabited

/-- Containment test of the program-header correlation loop
(src/main.rs line 709):
`offset as u64 >= phdr.p_offset && (offset as u64) < (phdr.p_offset + phdr.p_filesz)`. -/
def phdr_contains (offset : Nat) (p : ProgramHeader) : Bool :=
  decide (p.p_offset ≤ offset) && decide (offset < wrap_add p.p_offset p.p_filesz)

/-- Containment test of the section-header correlation loop
(src/main.rs line 714):
`offset as u64 >= shdr.sh_offset && (offset as u64) < (shdr.sh_offset + shdr.sh_size)`. -/
def shdr_contains (offset : Nat) (s : SectionHeader) : Bool :=
  decide (s.sh_offset ≤ offset) && decide (offset < wrap_add s.sh_offset s.sh_size)

/-- The `normalize` closure (src/main.rs line 702):
`(offset as u64 - base_offset) + base`. -/
def normalize (offset base_offset base : Nat) : Nat :=
  wrap_add (wrap_sub offset base_offset) base

/-- One reported containing range: either program header number `i` or
section number `i`, with the header row it came from. -/
inductive Hit where
  | ph (i : Nat) (p : ProgramHeader)
  | sh (i : Nat) (s : SectionHeader)
deriving DecidableEq

/-- File-offset base of the range backing a hit (`p_offset` / `sh_offset`). -/
def Hit.base_offset : Hit → Nat
  | .ph _ p => p.p_offset
  | .sh _ s => s.sh_offset

/-- Virtual-address base of the range backing a hit (`p_vaddr` / `sh_addr`). -/
def Hit.vbase : Hit → Nat
  | .ph _ p => p.p_vaddr
  | .sh _ s => s.sh_addr

/-- Relative output order of two hits: program headers come before
sections, and inside each group the table index ascends. -/
def hitBefore : Hit → Hit → Prop
  | .ph i _, .ph j _ => i < j
  | .ph _ _, .sh _ _ => True
  | .sh _ _, .ph _ _ => False
  | .sh i _, .sh j _ => i < j

/-- The enumerated program-header loop of the match correlation
(src/main.rs lines 708-712): each containing header is reported, paired
with the normalized virtual address printed on its line. -/
def locate_phdrs (offset : Nat) : Nat → List ProgramHeader → List (Hit × Nat)
  | _, [] => []
  | i, p :: rest =>
    if phdr_contains offset p then
      (Hit.ph i p, normalize offset p.p_offset p.p_vaddr) :: locate_phdrs offset (i + 1) rest
    else
      locate_phdrs offset (i + 1) rest

/-- The enumerated section-header loop of the match correlation
(src/main.rs lines 713-720). -/
def locate_shdrs (offset : Nat) : Nat → List SectionHeader → List (Hit × Nat)
  | _, [] => []
  | i, s :: rest =>
    if shdr_contains offset s then
      (Hit.sh i s, normalize offset s.sh_offset s.sh_addr) :: locate_shdrs offset (i + 1) rest
    else
      locate_shdrs offset (i + 1) rest

/-- Everything printed for one match offset: the program-header loop runs
first, then the section-header loop (the order of the two `for` loops in
`Elf::fmt`). The spec calls this `ranges_containing`. -/
def locate (phdrs : List ProgramHeader) (shdrs : List SectionHeader) (offset : Nat) :
    List (Hit × Nat) :=
  locate_phdrs offset 0 phdrs ++ locate_shdrs offset 0 shdrs

/-- The whole search-and-report block of `Elf::fmt`: one entry per match
offset, carrying the located ranges. The spec calls this `correlate`. -/
def correlate (phdrs : List ProgramHeader) (shdrs : List SectionHeader)
    (bytes search : List Nat) : List (Nat × List (Hit × Nat)) :=
  (find_all bytes search).map (fun o => (o, locate phdrs shdrs o))

lemma mem_locate_phdrs {offset : Nat} :
    ∀ (l : List ProgramHeader) (n : Nat) (x : Hit × Nat), x ∈ locate_phdrs offset n l →
      ∃ k p, l[k]? = some p ∧ phdr_contains offset p = true ∧
        x = (Hit.ph (n + k) p, normalize offset p.p_offset p.p_vaddr)
  | [], n, x, hx => by simp [locate_phdrs] at hx
  | p :: rest, n, x, hx => by
    rw [locate_phdrs] at hx
    by_cases hc : phdr_contains offset p = true
    · rw [if_pos hc] at hx
      rcases List.mem_cons.mp hx with h1 | h2
      · exact ⟨0, p, by simp, hc, by simpa using h1⟩
      · obtain ⟨k, q, hk, hq, hxq⟩ := mem_locate_phdrs rest (n + 1) x h2
        exact ⟨k + 1, q, by simpa using hk, hq, by rw [hxq]; ring_nf⟩
    · rw [if_neg hc] at hx
      obtain ⟨k, q, hk, hq, hxq⟩ := mem_locate_phdrs rest (n + 1) x hx
      exact ⟨k + 1, q, by simpa using hk, hq, by rw [hxq]; ring_nf⟩

lemma locate_phdrs_mem {offset : Nat} :
    ∀ (l : List ProgramHeader) (n k : Nat) (p : ProgramHeader), l[k]? = some p →
      phdr_contains offset p = true →
      (Hit.ph (n + k) p, normalize offset p.p_offset p.p_vaddr) ∈ locate_phdrs offset n l
  | [], _, k, _, hk, _ => by simp at hk
  | q :: rest, n, 0, p, hk, hc => by
    rw [List.getElem?_cons_zero, Option.some_inj] at hk
    subst hk
    rw [locate_phdrs, if_pos hc]
    simp
  | q :: rest, n, k + 1, p, hk, hc => by
    rw [List.getElem?_cons_succ] at hk
    have := locate_phdrs_mem rest (n + 1) k p hk hc
    rw [locate_phdrs]
    have harith : n + 1 + k = n + (k + 1) := by omega
    rw [harith] at this
    by_cases hq : phdr_contains offset q = true
    · rw [if_pos hq]
      exact List.mem_cons_of_mem _ this
    · rwa [if_neg hq]

lemma mem_locate_shdrs {offset : Nat} :
    ∀ (l : List SectionHeader) (n : Nat) (x : Hit × Nat), x ∈ locate_shdrs offset n l →
      ∃ k s, l[k]? = some s ∧ shdr_contains offset s = true ∧
        x = (Hit.sh (n + k) s, normalize offset s.sh_offset s.sh_addr)
  | [], n, x, hx => by simp [locate_shdrs] at hx
  | s :: rest, n, x, hx => by
    rw [locate_shdrs] at hx
    by_cases hc : shdr_contains offset s = true
    · rw [if_pos hc] at hx
      rcases List.mem_cons.mp hx with h1 | h2
      · exact ⟨0, s, by simp, hc, by simpa using h1⟩
      · obtain ⟨k, q, hk, hq, hxq⟩ := mem_locate_shdrs rest (n + 1) x h2
        exact ⟨k + 1, q, by simpa using hk, hq, by rw [hxq]; ring_nf⟩
    · rw [if_neg hc] at hx
      obtain ⟨k, q, hk, hq, hxq⟩ := mem_locate_shdrs rest (n + 1) x hx
      exact ⟨k + 1, q, by simpa using hk, hq, by rw [hxq]; ring_nf⟩

lemma locate_shdrs_mem {offset : Nat} :
    ∀ (l : List SectionHeader) (n k : Nat) (s : SectionHeader), l[k]? = some s →
      shdr_contains offset s = true →
      (Hit.sh (n + k) s, normalize offset s.sh_offset s.sh_addr) ∈ locate_shdrs offset n l
  | [], _, k, _, hk, _ => by simp at hk
  | q :: rest, n, 0, s, hk, hc => by
    rw [List.getElem?_cons_zero, Option.some_inj] at hk
    subst hk
    rw [locate_shdrs, if_pos hc]
    simp
  | q :: rest, n, k + 1, s, hk, hc => by
    rw [List.getElem?_cons_succ] at hk
    have := locate_shdrs_mem rest (n + 1) k s hk hc
    rw [locate_shdrs]
    have harith : n + 1 + k = n + (k + 1) := by omega
    rw [harith] at this
    by_cases hq : shdr_contains offset q = true
    · rw [if_pos hq]
      exact List.mem_cons_of_mem _ this
    · rwa [if_neg hq]

lemma locate_phdrs_pairwise {offset : Nat} :
    ∀ (l : List ProgramHeader) (n : Nat),
      List.Pairwise (fun x y : Hit × Nat => hitBefore x.1 y.1) (locate_phdrs offset n l)
  | [], _ => by simp [locate_phdrs]
  | p :: rest, n => by
    rw [locate_phdrs]
    by_cases hc : phdr_contains offset p = true
    · rw [if_pos hc]
      refine List.pairwise_cons.mpr ⟨?_, locate_phdrs_pairwise rest (n + 1)⟩
      intro y hy
      obtain ⟨k, q, -, -, hyq⟩ := mem_locate_phdrs rest (n + 1) y hy
      rw [hyq]
      show n < n + 1 + k
      omega
    · rw [if_neg hc]
      exact locate_phdrs_pairwise rest (n + 1)

lemma locate_shdrs_pairwise {offset : Nat} :
    ∀ (l : List SectionHeader) (n : Nat),
      List.Pairwise (fun x y : Hit × Nat => hitBefore x.1 y.1) (locate_shdrs offset n l)
  | [], _ => by simp [locate_shdrs]
  | s :: rest, n => by
    rw [locate_shdrs]
    by_cases hc : shdr_contains offset s = true
    · rw [if_pos hc]
      refine List.pairwise_cons.mpr ⟨?_, locate_shdrs_pairwise rest (n + 1)⟩
      intro y hy
      obtain ⟨k, q, -, -, hyq⟩ := mem_locate_shdrs rest (n + 1) y hy
      rw [hyq]
      show n < n + 1 + k
      omega
    · rw [if_neg hc]
      exact locate_shdrs_pairwise rest (n + 1)

/-- C2: a range is reported for a file offset exactly when
`file_offset ≤ offset < file_offset + file_size` (half-open, so zero-size
ranges never match) — stated for tables whose interval end does not
overflow `u64`, which makes the wrapping addition of the code coincide
with the mathematical sum — every containing range is reported, and the
report lists program headers before sections, each group in table order. -/
theorem claim_C2 (phdrs : List ProgramHeader) (shdrs : List SectionHeader) (offset : Nat)
    (hp : ∀ p ∈ phdrs, p.p_offset + p.p_filesz < u64_size)
    (hs : ∀ s ∈ shdrs, s.sh_offset + s.sh_size < u64_size) :
    (∀ i p, (∃ a, (Hit.ph i p, a) ∈ locate phdrs shdrs offset) ↔
       (phdrs[i]? = some p ∧ p.p_offset ≤ offset ∧ offset < p.p_offset + p.p_filesz)) ∧
    (∀ i s, (∃ a, (Hit.sh i s, a) ∈ locate phdrs shdrs offset) ↔
       (shdrs[i]? = some s ∧ s.sh_offset ≤ offset ∧ offset < s.sh_offset + s.sh_size)) ∧
    (∀ i p, phdrs[i]? = some p → p.p_filesz = 0 →
       ¬ ∃ a, (Hit.ph i p, a) ∈ locate phdrs shdrs offset) ∧
    (∀ i s, shdrs[i]? = some s → s.sh_size = 0 →
       ¬ ∃ a, (Hit.sh i s, a) ∈ locate phdrs shdrs offset) ∧
    List.Pairwise hitBefore ((locate phdrs shdrs offset).map Prod.fst) := by
  have hmemp : ∀ i p, (∃ a, (Hit.ph i p, a) ∈ locate phdrs shdrs offset) ↔
      (phdrs[i]? = some p ∧ p.p_offset ≤ offset ∧ offset < p.p_offset + p.p_filesz) := by
    intro i p
    constructor
    · rintro ⟨a, ha⟩
      rcases List.mem_append.mp ha with h1 | h2
      · obtain ⟨k, q, hk, hq, hxq⟩ := mem_locate_phdrs phdrs 0 _ h1
        rw [Prod.mk.injEq] at hxq
        obtain ⟨hhit, -⟩ := hxq
        rw [Hit.ph.injEq] at hhit
        obtain ⟨hik, hpq⟩ := hhit
        subst hpq
        rw [Nat.zero_add] at hik
        subst hik
        refine ⟨hk, ?_⟩
        have hpin : p ∈ phdrs := by
          have h2 := List.getElem?_eq_some.mp hk
          obtain ⟨hlt, hget⟩ := h2
          rw [← hget]
          exact List.getElem_mem hlt
        have hlt := hp p hpin
        rw [phdr_contains, Bool.and_eq_true, decide_eq_true_eq, decide_eq_true_eq] at hq
        rw [wrap_add, Nat.mod_eq_of_lt hlt] at hq
        exact hq
      · obtain ⟨k, q, -, -, hxq⟩ := mem_locate_shdrs shdrs 0 _ h2
        rw [Prod.mk.injEq] at hxq
        exact absurd hxq.1 (by simp)
    · rintro ⟨hk, h1, h2⟩
      have hpin : p ∈ phdrs := by
        have h3 := List.getElem?_eq_some.mp hk
        obtain ⟨hlt, hget⟩ := h3
        rw [← hget]
        exact List.getElem_mem hlt
      have hlt := hp p hpin
      have hc : phdr_contains offset p = true := by
        rw [phdr_contains, Bool.and_eq_true, decide_eq_true_eq, decide_eq_true_eq]
        rw [wrap_add, Nat.mod_eq_of_lt hlt]
        exact ⟨h1, h2⟩
      refine ⟨normalize offset p.p_offset p.p_vaddr, List.mem_append.mpr (Or.inl ?_)⟩
      have := @locate_phdrs_mem offset phdrs 0 i p hk hc
      rwa [Nat.zero_add] at this
  have hmems : ∀ i s, (∃ a, (Hit.sh i s, a) ∈ locate phdrs shdrs offset) ↔
      (shdrs[i]? = some s ∧ s.sh_offset ≤ offset ∧ offset < s.sh_offset + s.sh_size) := by
    intro i s
    constructor
    · rintro ⟨a, ha⟩
      rcases List.mem_append.mp ha with h1 | h2
      · obtain ⟨k, q, -, -, hxq⟩ := mem_locate_phdrs phdrs 0 _ h1
        rw [Prod.mk.injEq] at hxq
        exact absurd hxq.1 (by simp)
      · obtain ⟨k, q, hk, hq, hxq⟩ := mem_locate_shdrs shdrs 0 _ h2
        rw [Prod.mk.injEq] at hxq
        obtain ⟨hhit, -⟩ := hxq
        rw [Hit.sh.injEq] at hhit
        obtain ⟨hik, hpq⟩ := hhit
        subst hpq
        rw [Nat.zero_add] at hik
        subst hik
        refine ⟨hk, ?_⟩
        have hsin : s ∈ shdrs := by
          have h2 := List.getElem?_eq_some.mp hk
          obtain ⟨hlt, hget⟩ := h2
          rw [← hget]
          exact List.getElem_mem hlt
        have hlt := hs s hsin
        rw [shdr_contains, Bool.and_eq_true, decide_eq_true_eq, decide_eq_true_eq] at hq
        rw [wrap_add, Nat.mod_eq_of_lt hlt] at hq
        exact hq
    · rintro ⟨hk, h1, h2⟩
      have hsin : s ∈ shdrs := by
        have h3 := List.getElem?_eq_some.mp hk
        obtain ⟨hlt, hget⟩ := h3
        rw [← hget]
        exact List.getElem_mem hlt
      have hlt := hs s hsin
      have hc : shdr_contains offset s = true := by
        rw [shdr_contains, Bool.and_eq_true, decide_eq_true_eq, decide_eq_true_eq]
        rw [wrap_add, Nat.mod_eq_of_lt hlt]
        exact ⟨h1, h2⟩
      refine ⟨normalize offset s.sh_offset s.sh_addr, List.mem_append.mpr (Or.inr ?_)⟩
      have := @locate_shdrs_mem offset shdrs 0 i s hk hc
      rwa [Nat.zero_add] at this
  refine ⟨hmemp, hmems, ?_, ?_, ?_⟩
  · intro i p hk hz hex
    have := (hmemp i p).mp hex
    omega
  · intro i s hk hz hex
    have := (hmems i s).mp hex
    omega
  · rw [locate]
    apply List.Pairwise.map Prod.fst (fun a b h => h)
    rw [List.pairwise_append]
    refine ⟨locate_phdrs_pairwise phdrs 0, locate_shdrs_pairwise shdrs 0, ?_⟩
    intro x hx y hy
    obtain ⟨k, q, -, -, hxq⟩ := mem_locate_phdrs phdrs 0 x hx
    obtain ⟨m, r, -, -, hyr⟩ := mem_locate_shdrs shdrs 0 y hy
    rw [hxq, hyr]
    trivial

/-! Synthetic structural model used by the end-to-end example of the spec:
one loadable segment covering file bytes 0x0 to 0x100 mapped at 0x1000,
one section covering 0x10 to 0x20 mapped at 0x1010, and a haystack whose
only occurrence of the byte 0x58 (the pattern "X") is at offset 0x15. -/

def exSeg : ProgramHeader :=
  { p_type := 1, p_flags := 4, p_offset := 0x0, p_vaddr := 0x1000, p_paddr := 0x1000,
    p_filesz := 0x100, p_memsz := 0x100, p_align := 0x1000 }

def exSec : SectionHeader :=
  { sh_name := 0, sh_type := 1, sh_flags := 0, sh_addr := 0x1010, sh_offset := 0x10,
    sh_size := 0x10, sh_link := 0, sh_info := 0, sh_addralign := 0, sh_entsize := 0 }

def exHay : List Nat := List.replicate 0x15 0 ++ [0x58]

def exNeedle : List Nat := [0x58]

/-- Witness for C2: in the synthetic model, offset 0x15 is reported as
contained in program header 0. -/
theorem claim_C2_witness : ∃ a, (Hit.ph 0 exSeg, a) ∈ locate [exSeg] [exSec] 0x15 :=
  ((claim_C2 [exSeg] [exSec] 0x15 (by decide) (by decide)).1 0 exSeg).mpr (by decide)

lemma wrap_sub_exact {a b : Nat} (hba : b ≤ a) (ha : a < u64_size) : wrap_sub a b = a - b := by
  rw [wrap_sub]
  have h1 : u64_size + a - b = u64_size + (a - b) := by omega
  rw [h1, Nat.add_mod_left]
  exact Nat.mod_eq_of_lt (by omega)

lemma wrap_add_exact {a b : Nat} (h : a + b < u64_size) : wrap_add a b = a + b := by
  rw [wrap_add]
  exact Nat.mod_eq_of_lt h

/-- C3 counterexample: in the synthetic model of the spec the two hits at
offset 0x15 both carry the normalized address 0x1015 — the segment line
shows virtual address 0x1000 + (0x15 - 0x0) = 0x1015, and 0x1005 appears
nowhere, contradicting the address 0x1005 the claim predicts for the
segment. -/
theorem claim_C3_cex :
    (locate [exSeg] [exSec] 0x15).map Prod.snd = [0x1015, 0x1015] ∧
    (0x1005 : Nat) ∉ (locate [exSeg] [exSec] 0x15).map Prod.snd := by
  decide

/-- C3 amended: every reported normalized address equals
`virtual_address + (offset - file_offset)` (stated below the `u64` range,
where the wrapping arithmetic of the code is exact), and on the synthetic
model of the spec the match at offset 0x15 yields one report holding both
ranges — with normalized address 0x1015 for the segment (not 0x1005; the
formula of the claim itself gives 0x1000 + 0x15 = 0x1015) and 0x1015 for
the section. -/
theorem claim_C3 :
    (∀ (phdrs : List ProgramHeader) (shdrs : List SectionHeader) (offset : Nat)
        (x : Hit × Nat), x ∈ locate phdrs shdrs offset → offset < u64_size →
        Hit.vbase x.1 + (offset - Hit.base_offset x.1) < u64_size →
        x.2 = Hit.vbase x.1 + (offset - Hit.base_offset x.1)) ∧
    correlate [exSeg] [exSec] exHay exNeedle =
      [(0x15, [(Hit.ph 0 exSeg, 0x1015), (Hit.sh 0 exSec, 0x1015)])] := by
  constructor
  · intro phdrs shdrs offset x hx hoff hno
    rcases List.mem_append.mp hx with h1 | h2
    · obtain ⟨k, p, -, hc, hxq⟩ := mem_locate_phdrs phdrs 0 x h1
      rw [phdr_contains, Bool.and_eq_true, decide_eq_true_eq, decide_eq_true_eq] at hc
      rw [hxq]
      rw [hxq] at hno
      simp only [Hit.vbase, Hit.base_offset] at hno ⊢
      rw [normalize, wrap_sub_exact hc.1 hoff, wrap_add_exact (by omega)]
      omega
    · obtain ⟨k, s, -, hc, hxq⟩ := mem_locate_shdrs shdrs 0 x h2
      rw [shdr_contains, Bool.and_eq_true, decide_eq_true_eq, decide_eq_true_eq] at hc
      rw [hxq]
      rw [hxq] at hno
      simp only [Hit.vbase, Hit.base_offset] at hno ⊢
      rw [normalize, wrap_sub_exact hc.1 hoff, wrap_add_exact (by omega)]
      omega
  · decide

/-- Witness for C3: the address reported with the segment hit of the
synthetic model satisfies the normalization formula. -/
theorem claim_C3_witness :
    ((Hit.ph 0 exSeg, 0x1015) : Hit × Nat).2 =
      Hit.vbase (Hit.ph 0 exSeg) + (0x15 - Hit.base_offset (Hit.ph 0 exSeg)) :=
  claim_C3.1 [exSeg] [exSec] 0x15 (Hit.ph 0 exSeg, 0x1015) (by decide) (by decide) (by decide)

/-! ## Hexadecimal rendering

Rust formats integers with the `x` format spec in lowercase hexadecimal,
minimal width; the alternate form prepends `0x`. On a signed integer the
hex spec formats the two-complement bit pattern, not a sign-magnitude
form: this is the behaviour `offs` inherits in the source. -/

/-- One lowercase hexadecimal digit (only reached with `d < 16`). -/
def hexDigitChar : Nat → Char
  | 0 => '0'
  | 1 => '1'
  | 2 => '2'
  | 3 => '3'
  | 4 => '4'
  | 5 => '5'
  | 6 => '6'
  | 7 => '7'
  | 8 => '8'
  | 9 => '9'
  | 10 => 'a'
  | 11 => 'b'
  | 12 => 'c'
  | 13 => 'd'
  | 14 => 'e'
  | _ => 'f'

/-- Fuelled digit accumulation, most significant digit first; the fuel
`n + 1` in `hexChars` always suffices. -/
def hexCore : Nat → Nat → List Char → List Char
  | 0, _, ds => ds
  | fuel + 1, n, ds =>
    if n / 16 = 0 then hexDigitChar (n % 16) :: ds
    else hexCore fuel (n / 16) (hexDigitChar (n % 16) :: ds)

def hexChars (n : Nat) : List Char := hexCore (n + 1) n []

/-- Rendering of the plain `x` format spec (used by the `addr` helper of
the source). -/
def hexPlain (n : Nat) : String := (hexChars n).asString

/-- Rendering of the alternate hex format spec (used by `off`, `offs`,
`sz` in the source). -/
def hexRepr (n : Nat) : String := "0x" ++ hexPlain n

/-! ## Symbol and relocation cross-referencing (`shndx_cell`, `fmt_relocs`) -/

/-- Section-index cell rendering, `shndx_cell` (src/main.rs lines 115-129):
an index at or past the table length renders `ABS` for the reserved value
0xfff1 and `BAD_IDX=` plus the index otherwise; an in-range non-zero index
renders the section name (resolved through the section-header string
table) followed by the parenthesized index; index 0 renders empty. -/
def shndx_cell (idx : Nat) (shdrs : List SectionHeader) (strtab : Nat → String) : String :=
  if h : shdrs.length ≤ idx then
    if idx = 0xfff1 then "ABS" else "BAD_IDX=" ++ toString idx
  else if idx ≠ 0 then
    strtab (shdrs.get ⟨idx, Nat.not_le.mp h⟩).sh_name ++ "(" ++ toString idx ++ ")"
  else ""

/-- A three-entry section table and a string-table stub for concrete
evaluations. -/
def exShdrs3 : List SectionHeader := [exSec, exSec, exSec]

def exStrtab : Nat → String := fun _ => ".text"

/-- C4 counterexample: at index length + 5 = 8 of a three-entry table the
cell text is `BAD_IDX=8`, with an equals sign — not the `BAD_IDX(8)` the
claim predicts. -/
theorem claim_C4_cex :
    shndx_cell (3 + 5) exShdrs3 exStrtab = "BAD_IDX=8" ∧
    shndx_cell (3 + 5) exShdrs3 exStrtab ≠ "BAD_IDX(8)" := by
  decide

/-- C4 amended: section-index resolution renders `ABS` when the index is
at or past the table length and equals the reserved sentinel 0xfff1;
`BAD_IDX=index` (equals sign, not parentheses) when it is at or past the
length and is not the sentinel; an empty field when the index is 0 and the
table is non-empty; and `name(index)` for an in-range non-zero index —
always totally, never aborting processing. -/
theorem claim_C4 (idx : Nat) (shdrs : List SectionHeader) (strtab : Nat → String) :
    (shdrs.length ≤ idx → idx = 0xfff1 → shndx_cell idx shdrs strtab = "ABS") ∧
    (shdrs.length ≤ idx → idx ≠ 0xfff1 →
      shndx_cell idx shdrs strtab = "BAD_IDX=" ++ toString idx) ∧
    (idx = 0 → idx < shdrs.length → shndx_cell idx shdrs strtab = "") ∧
    (∀ h : idx < shdrs.length, idx ≠ 0 →
      shndx_cell idx shdrs strtab =
        strtab (shdrs.get ⟨idx, h⟩).sh_name ++ "(" ++ toString idx ++ ")") := by
  refine ⟨?_, ?_, ?_, ?_⟩
  · intro hle he
    unfold shndx_cell
    rw [dif_pos hle, if_pos he]
  · intro hle hne
    unfold shndx_cell
    rw [dif_pos hle, if_neg hne]
  · intro h0 hlt
    unfold shndx_cell
    rw [dif_neg (Nat.not_le.mpr hlt)]
    subst h0
    simp
  · intro h hne
    unfold shndx_cell
    rw [dif_neg (Nat.not_le.mpr h), if_pos hne]

/-- Witness for C4: the sentinel index on an empty table renders ABS, and
index 1 of the three-entry table renders the resolved name with its
index. -/
theorem claim_C4_witness :
    shndx_cell 0xfff1 ([] : List SectionHeader) exStrtab = "ABS" ∧
    shndx_cell 1 exShdrs3 exStrtab = ".text(1)" := by
  constructor
  · exact (claim_C4 0xfff1 [] exStrtab).1 (by decide) rfl
  · have h := (claim_C4 1 exShdrs3 exStrtab).2.2.2 (by decide) (by decide)
    rw [h]
    decide

/-- ELF symbol-type value for section symbols (`sym::STT_SECTION`). -/
def STT_SECTION : Nat := 3

/-- ELF symbol-table entry as goblin exposes it to `fmt_relocs`. -/
structure Sym where
  st_name : Nat
  st_info : Nat
  st_other : Nat
  st_shndx : Nat
  st_value : Nat
  st_size : Nat
deriving DecidableEq, Inhabited

/-- Symbol type, the low nibble of `st_info` (goblin `Sym::st_type`). -/
def Sym.st_type (s : Sym) : Nat := s.st_info % 16

/-- Relocation-name policy of `fmt_relocs` (src/main.rs lines 594-603):
for a symbol with `st_name == 0` of type section, the source indexes
`self.elf.section_headers[sym.st_shndx]` directly — `none` here models the
Rust index-out-of-bounds panic when `st_shndx` is at or past the table
length — and renders the indexed section name; a nameless non-section
symbol renders `ABS`; otherwise the name resolves through the symbol
string table. -/
def reloc_name (sym : Sym) (shdrs : List SectionHeader)
    (shdr_strtab strtab : Nat → String) : Option String :=
  if sym.st_name = 0 then
    if Sym.st_type sym = STT_SECTION then
      match shdrs[sym.st_shndx]? with
      | some shdr => some (shdr_strtab shdr.sh_name)
      | none => none
    else some "ABS"
  else some (strtab sym.st_name)

/-- C5 counterexample: a nameless section-typed symbol whose section index
8 is past the three-entry table makes `fmt_relocs` panic (modelled `none`)
instead of producing the `BAD_IDX` sentinel of the `shndx_cell` policy:
the claimed index-resolution fallback is not applied here. -/
theorem claim_C5_cex :
    reloc_name { st_name := 0, st_info := 3, st_other := 0, st_shndx := 8,
                 st_value := 0, st_size := 0 } exShdrs3 exStrtab exStrtab = none := by
  decide

/-- C5 amended: for a relocation symbol with `st_name = 0` of type
section, the rendered name is the section-header string-table name of the
section at `st_shndx`, obtained by direct indexing — so an out-of-range
index panics (no `BAD_IDX` sentinel, no `shndx_cell` policy); a symbol
with `st_name = 0` that is not section-typed renders `ABS`; a symbol with
`st_name ≠ 0` renders its string-table name. -/
theorem claim_C5 (sym : Sym) (shdrs : List SectionHeader)
    (shdr_strtab strtab : Nat → String) :
    (sym.st_name = 0 → Sym.st_type sym = STT_SECTION →
      ∀ h : sym.st_shndx < shdrs.length,
        reloc_name sym shdrs shdr_strtab strtab =
          some (shdr_strtab (shdrs.get ⟨sym.st_shndx, h⟩).sh_name)) ∧
    (sym.st_name = 0 → Sym.st_type sym = STT_SECTION → shdrs.length ≤ sym.st_shndx →
      reloc_name sym shdrs shdr_strtab strtab = none) ∧
    (sym.st_name = 0 → Sym.st_type sym ≠ STT_SECTION →
      reloc_name sym shdrs shdr_strtab strtab = some "ABS") ∧
    (sym.st_name ≠ 0 →
      reloc_name sym shdrs shdr_strtab strtab = some (strtab sym.st_name)) := by
  refine ⟨?_, ?_, ?_, ?_⟩
  · intro h0 ht h
    unfold reloc_name
    rw [if_pos h0, if_pos ht, List.getElem?_eq_getElem h]
    rfl
  · intro h0 ht hle
    unfold reloc_name
    rw [if_pos h0, if_pos ht, List.getElem?_eq_none hle]
  · intro h0 hne
    unfold reloc_name
    rw [if_pos h0, if_neg hne]
  · intro hne
    unfold reloc_name
    rw [if_neg hne]

/-- Nameless section-typed symbol pointing at section 1 of the table. -/
def exSymSec : Sym :=
  { st_name := 0, st_info := 3, st_other := 0, st_shndx := 1, st_value := 0, st_size := 0 }

/-- Nameless object-typed symbol. -/
def exSymAbs : Sym :=
  { st_name := 0, st_info := 1, st_other := 0, st_shndx := 0, st_value := 0, st_size := 0 }

/-- Witness for C5: an in-range section-typed nameless symbol renders the
section name, and a nameless non-section symbol renders ABS. -/
theorem claim_C5_witness :
    reloc_name exSymSec exShdrs3 exStrtab exStrtab = some ".text" ∧
    reloc_name exSymAbs exShdrs3 exStrtab exStrtab = some "ABS" := by
  constructor
  · have h := (claim_C5 exSymSec exShdrs3 exStrtab exStrtab).1 rfl (by decide) (by decide)
    rw [h]
    decide
  · exact (claim_C5 exSymAbs exShdrs3 exStrtab exStrtab).2.2.1 rfl (by decide)

/-- The `offs` helper (src/main.rs lines 156-158): alternate hex format of
an `isize`; on a negative value Rust prints the unsigned 64-bit
two-complement bit pattern, which is the value modulo `2 ^ 64`. -/
def offs (a : Int) : String := hexRepr (a % (2 ^ 64 : Int)).toNat

/-- The addend suffix of one relocation line (src/main.rs lines 605-609):
nothing for a zero addend, otherwise a plus sign followed by `offs`. -/
def addend_str (r_addend : Int) : String :=
  if r_addend = 0 then "" else "+" ++ offs r_addend

/-- ELF relocation entry as goblin exposes it (`r_addend` is an `isize`). -/
structure Reloc where
  r_offset : Nat
  r_sym : Nat
  r_type : Nat
  r_addend : Int
deriving DecidableEq

/-- One line of `fmt_relocs` (src/main.rs lines 590-611): the symbol is
fetched by direct indexing (`none` models the panic on an out-of-range
`r_sym`), then address, relocation-type text (resolved by goblin, passed
in), name and addend suffix are printed. -/
def fmt_reloc (reloc : Reloc) (syms : List Sym) (shdrs : List SectionHeader)
    (shdr_strtab strtab : Nat → String) (rtype_str : String) : Option String :=
  match syms[reloc.r_sym]? with
  | none => none
  | some sym =>
    match reloc_name sym shdrs shdr_strtab strtab with
    | none => none
    | some name =>
      some (hexPlain reloc.r_offset ++ " " ++ rtype_str ++ " " ++ name
        ++ addend_str reloc.r_addend)

lemma hexDigitChar_ne_dash : ∀ d : Nat, hexDigitChar d ≠ '-'
  | 0 => by decide
  | 1 => by decide
  | 2 => by decide
  | 3 => by decide
  | 4 => by decide
  | 5 => by decide
  | 6 => by decide
  | 7 => by decide
  | 8 => by decide
  | 9 => by decide
  | 10 => by decide
  | 11 => by decide
  | 12 => by decide
  | 13 => by decide
  | 14 => by decide
  | n + 15 => by
    have h : hexDigitChar (n + 15) = 'f' := rfl
    rw [h]
    decide

lemma hexCore_chars :
    ∀ (fuel n : Nat) (ds : List Char) (c : Char), c ∈ hexCore fuel n ds →
      c ∈ ds ∨ ∃ d, c = hexDigitChar d
  | 0, _, _, _, hc => Or.inl hc
  | fuel + 1, n, ds, c, hc => by
    rw [hexCore] at hc
    by_cases h : n / 16 = 0
    · rw [if_pos h] at hc
      rcases List.mem_cons.mp hc with h1 | h2
      · exact Or.inr ⟨n % 16, h1⟩
      · exact Or.inl h2
    · rw [if_neg h] at hc
      rcases hexCore_chars fuel (n / 16) _ c hc with h1 | h2
      · rcases List.mem_cons.mp h1 with h3 | h4
        · exact Or.inr ⟨n % 16, h3⟩
        · exact Or.inl h4
      · exact h2.elim (fun d hd => Or.inr ⟨d, hd⟩)

lemma dash_not_mem_hexChars (n : Nat) : '-' ∉ hexChars n := by
  intro hmem
  rcases hexCore_chars (n + 1) n [] _ hmem with h1 | h2
  · simp at h1
  · obtain ⟨d, hd⟩ := h2
    exact hexDigitChar_ne_dash d hd.symm

/-- C6 counterexample: the addend -1 renders as the large unsigned
hexadecimal bit pattern behind a plus sign, with no negative sign
anywhere. -/
theorem claim_C6_cex : addend_str (-1) = "+0xffffffffffffffff" := by decide

/-- C6 amended: a zero addend produces no addend text; a nonzero addend
renders as a plus sign followed by the alternate-hex rendering of its
64-bit two-complement bit pattern — never a minus sign in the digits — so
-1 renders as +0xffffffffffffffff rather than with a negative sign. -/
theorem claim_C6 (a : Int) :
    (a = 0 → addend_str a = "") ∧
    (a ≠ 0 → addend_str a = "+" ++ hexRepr (a % (2 ^ 64 : Int)).toNat ∧
      '-' ∉ hexChars (a % (2 ^ 64 : Int)).toNat) := by
  constructor
  · intro h
    rw [addend_str, if_pos h]
  · intro h
    rw [addend_str, if_neg h]
    exact ⟨rfl, dash_not_mem_hexChars _⟩

/-- Witness for C6: the nonzero case applied at addend -1. -/
theorem claim_C6_witness :
    addend_str (-1) = "+" ++ hexRepr (((-1 : Int) % (2 ^ 64 : Int)).toNat) ∧
    '-' ∉ hexChars (((-1 : Int) % (2 ^ 64 : Int)).toNat) :=
  (claim_C6 (-1)).2 (by decide)

/-! ## Mach-O rendering (`MachO::fmt`)

Goblin hands `MachO::fmt` segments whose `name()` and `sections()` return
`Result` values (decoding can fail on malformed bytes), and sections whose
`name()` does too; both are modelled as `Option`. -/

structure MachSection where
  secname : Option String
  addr : Nat
  size : Nat
  offset : Nat
  align : Nat
  reloff : Nat
  nreloc : Nat
  flags : Nat
  datalen : Nat
deriving DecidableEq, Inhabited

/-- The `fmt_section` closure (src/main.rs lines 244-258): a decodable
name renders the full field line; a failing `section.name()` renders the
sentinel line `BAD SECTION NAME` instead, and rendering goes on. -/
def fmt_section (i : Nat) (s : MachSection) : String :=
  match s.secname with
  | some name =>
    "    " ++ toString i ++ ": " ++ name
      ++ "    addr: " ++ hexPlain s.addr
      ++ "    size: " ++ hexRepr s.size
      ++ "    offset: " ++ hexRepr s.offset
      ++ "    align: " ++ toString s.align
      ++ "    reloff: " ++ hexRepr s.reloff
      ++ "    nreloc: " ++ toString s.nreloc
      ++ "    flags: " ++ hexRepr s.flags
      ++ "    data: " ++ toString s.datalen
  | none => "    " ++ toString i ++ ": " ++ "BAD SECTION NAME"

/-- The enumerated section loop of the `fmt_sections` closure
(src/main.rs lines 260-266), one rendered line per section. -/
def fmt_sections_from : Nat → List MachSection → List String
  | _, [] => []
  | i, s :: rest => fmt_section i s :: fmt_sections_from (i + 1) rest

def fmt_sections_lines (sections : List MachSection) : List String :=
  fmt_sections_from 0 sections

structure MachSegment where
  segname : Option String
  sections : Option (List MachSection)
deriving DecidableEq

/-- One iteration of the segments loop (src/main.rs lines 270-274): the
source calls `segment.name().unwrap()` and `segment.sections().unwrap()`,
so a failing decode of either panics — modelled as `none`. -/
def fmt_segment (seg : MachSegment) : Option (String × List String) :=
  match seg.segname with
  | none => none
  | some name =>
    match seg.sections with
    | none => none
    | some secs => some (name, fmt_sections_lines secs)

/-- The whole segments loop of `MachO::fmt`: iterations run in order and
the first panicking iteration aborts everything (`none`). -/
def fmt_segments : List MachSegment → Option (List (String × List String))
  | [] => some []
  | seg :: rest =>
    match fmt_segment seg with
    | none => none
    | some entry =>
      match fmt_segments rest with
      | none => none
      | some entries => some (entry :: entries)

def exBadSec : MachSection :=
  { secname := none, addr := 0, size := 0, offset := 0, align := 0, reloff := 0,
    nreloc := 0, flags := 0, datalen := 0 }

def exBadSeg : MachSegment := { segname := none, sections := some [] }

lemma fmt_sections_from_length :
    ∀ (l : List MachSection) (n : Nat), (fmt_sections_from n l).length = l.length
  | [], _ => rfl
  | s :: rest, n => by
    rw [fmt_sections_from, List.length_cons, List.length_cons,
      fmt_sections_from_length rest (n + 1)]

lemma fmt_sections_from_get :
    ∀ (l : List MachSection) (n i : Nat) (s : MachSection), l[i]? = some s →
      (fmt_sections_from n l)[i]? = some (fmt_section (n + i) s)
  | [], _, i, _, h => by simp at h
  | x :: rest, n, 0, s, h => by
    rw [List.getElem?_cons_zero, Option.some_inj] at h
    subst h
    rw [fmt_sections_from, List.getElem?_cons_zero, Nat.add_zero]
  | x :: rest, n, i + 1, s, h => by
    rw [List.getElem?_cons_succ] at h
    rw [fmt_sections_from, List.getElem?_cons_succ,
      fmt_sections_from_get rest (n + 1) i s h]
    have harith : n + 1 + i = n + (i + 1) := by omega
    rw [harith]

lemma fmt_segments_eq_none :
    ∀ (segs : List MachSegment) (seg : MachSegment), seg ∈ segs → seg.segname = none →
      fmt_segments segs = none
  | [], _, h, _ => absurd h (List.not_mem_nil _)
  | x :: rest, seg, h, hn => by
    rw [fmt_segments]
    rcases List.mem_cons.mp h with h1 | h2
    · subst h1
      obtain ⟨sn, ss⟩ := seg
      simp only at hn
      subst hn
      rfl
    · have hrest := fmt_segments_eq_none rest seg h2 hn
      rw [hrest]
      cases hfx : fmt_segment x with
      | none => rfl
      | some y => rfl

/-- C8 counterexample: a segment whose name cannot be decoded makes the
segments loop panic (the whole rendering is `none`, nothing named
`<unreadable>` is produced), and a section with an undecodable name
renders the sentinel `BAD SECTION NAME`, not `<unreadable>`. -/
theorem claim_C8_cex :
    fmt_segments [exBadSeg] = none ∧
    fmt_section 0 exBadSec = "    0: BAD SECTION NAME" := by
  decide

/-- C8 amended: a section whose name cannot be decoded yields the sentinel
line `BAD SECTION NAME` while every other section still renders (one line
per section, no abort); but a segment whose name cannot be decoded panics
through `unwrap`, aborting the whole segments rendering — there is no
`<unreadable>` sentinel. -/
theorem claim_C8 (sections : List MachSection) (segs : List MachSegment) :
    (fmt_sections_lines sections).length = sections.length ∧
    (∀ (i : Nat) (s : MachSection), sections[i]? = some s → s.secname = none →
      (fmt_sections_lines sections)[i]? =
        some ("    " ++ toString i ++ ": " ++ "BAD SECTION NAME")) ∧
    (∀ seg ∈ segs, seg.segname = none → fmt_segments segs = none) := by
  refine ⟨fmt_sections_from_length sections 0, ?_, ?_⟩
  · intro i s hi hn
    rw [fmt_sections_lines, fmt_sections_from_get sections 0 i s hi, Nat.zero_add]
    obtain ⟨sn, a1, a2, a3, a4, a5, a6, a7, a8⟩ := s
    simp only at hn
    subst hn
    rfl
  · intro seg hmem hn
    exact fmt_segments_eq_none segs seg hmem hn

/-- Witness for C8: the undecodable section renders its sentinel line, and
a list holding the undecodable segment renders to `none` even with a good
segment behind it. -/
theorem claim_C8_witness :
    (fmt_sections_lines [exBadSec])[0]? =
      some ("    " ++ toString 0 ++ ": " ++ "BAD SECTION NAME") ∧
    fmt_segments [exBadSeg, { segname := some "__TEXT", sections := some [] }] = none := by
  constructor
  · exact (claim_C8 [exBadSec] []).2.1 0 exBadSec (by decide) rfl
  · exact (claim_C8 [] [exBadSeg, { segname := some "__TEXT", sections := some [] }]).2.2
      exBadSeg (List.mem_cons_self _ _) rfl

/-! ## Mach-O Libraries listing -/

/-- Rust range slicing `v[start..]`: panics (`none`) when `start` exceeds
the vector length. -/
def rust_slice_from (v : List String) (start : Nat) : Option (List String) :=
  if start ≤ v.length then some (v.drop start) else none

/-- The Libraries block of `MachO::fmt` (src/main.rs lines 301-304): the
header shows `mach.libs.len()`, the loop walks `&mach.libs[1..]`. -/
def libraries_listing (libs : List String) : Option (Nat × List String) :=
  (rust_slice_from libs 1).map (fun rest => (libs.length, rest))

/-- C10: the Libraries listing always skips the first entry of the library
list while the displayed count is the full list length (so one fewer entry
renders than the count says), and on an empty list the slice `libs[1..]`
is out of bounds — the listing is only defined for non-empty lists. -/
theorem claim_C10 (libs : List String) :
    (libs = [] → libraries_listing libs = none) ∧
    (libs ≠ [] → libraries_listing libs = some (libs.length, libs.drop 1) ∧
      (libs.drop 1).length + 1 = libs.length) := by
  constructor
  · intro h
    subst h
    rfl
  · intro h
    have hpos : 0 < libs.length := List.length_pos.mpr h
    constructor
    · rw [libraries_listing, rust_slice_from, if_pos (by omega)]
      rfl
    · rw [List.length_drop]
      omega

/-- Witness for C10: a two-entry library list renders the count 2 but only
the second entry. -/
theorem claim_C10_witness :
    libraries_listing ["libself", "libfoo"] = some (2, ["libfoo"]) := by
  have h := ((claim_C10 ["libself", "libfoo"]).2 (by decide)).1
  rw [h]
  rfl

end Bingrep
